import Mathlib

/-!
Shallow embedding of confluo's universal-sketch core
(`src/libconfluo/confluo/container/sketch/confluo_universal_sketch.h` and
`src/libconfluo/confluo/container/sketch/stream_summary.h`).

Modelling conventions:
* `size_t` key hashes are `ℕ`; `counter_t` (default `int64_t`) is `ℤ`
  (the identities proved below are ring identities, preserved by the
  two's-complement quotient map).  Where unsigned wrap-around matters for an
  index computation it is written explicitly with `% 2 ^ 64`.
* `double` arithmetic of the heavy-hitter threshold test is modelled over `ℚ`;
  `std::sqrt` enters only through an abstract parameter `sqrtFn : ℤ → ℚ`,
  since none of the verified properties depends on its value.
* The repository ships neither `count_sketch.h`, `hash_manager.h`,
  `priority_queue.h` nor `byte_string`; those collaborators are modelled from
  the spec (each such definition carries a `Modelled from the spec:` note).
* Everything is single-threaded state passing; atomics become plain fields.
-/

namespace Confluo

/-- Modelled from the spec: the row median used by Count-Sketch `estimate`
(spec 4.D, "median over rows of sign-adjusted counters"); `count_sketch.h` is
not in the repository.  For an odd number of rows the median is unambiguous;
for an even number we take the lower median. -/
def median (l : List ℤ) : ℤ :=
  (l.insertionSort (fun a b => a ≤ b)).getD ((l.length - 1) / 2) 0

/-- Modelled from the spec: Count-Sketch state (spec 4.D), a depth × width
matrix of signed counters together with per-row bucket hashes (values in
`[0, width)`) and per-row sign hashes (values in `{-1, +1}`). -/
structure CountSketch where
  depth : ℕ
  width : ℕ
  bucket : ℕ → ℕ → ℕ
  sgn : ℕ → ℕ → ℤ
  cells : List (List ℤ)

/-- Modelled from the spec: `count_sketch::estimate` — the median over rows of
the sign-adjusted counter at the key's bucket. -/
def csEstimate (cs : CountSketch) (key : ℕ) : ℤ :=
  median ((List.range cs.depth).map
    (fun r => cs.sgn r key * ((cs.cells.getD r []).getD (cs.bucket r key) 0)))

/-- Helper for `csUpdate`: add `sgn r key * d` to row `r`'s counter at
`bucket r key`, walking the rows with their indices. -/
def updCells (bucket : ℕ → ℕ → ℕ) (sgn : ℕ → ℕ → ℤ) (key : ℕ) (d : ℤ) :
    ℕ → List (List ℤ) → List (List ℤ)
  | _, [] => []
  | r, row :: rest =>
      row.set (bucket r key) (row.getD (bucket r key) 0 + sgn r key * d) ::
        updCells bucket sgn key d (r + 1) rest

/-- Modelled from the spec: `count_sketch::update` — for each row `r` add
`sign_r(key) * d` to the counter at `bucket_r(key)`. -/
def csUpdate (cs : CountSketch) (key : ℕ) (d : ℤ) : CountSketch :=
  { cs with cells := updCells cs.bucket cs.sgn key d 0 cs.cells }

/-- Modelled from the spec: `count_sketch::update_and_estimate` — returns the
estimate as of just before the update, and the updated sketch. -/
def csUpdateAndEstimate (cs : CountSketch) (key : ℕ) (d : ℤ) :
    ℤ × CountSketch :=
  (csEstimate cs key, csUpdate cs key d)

/-- Modelled from the spec: an empty depth × width Count-Sketch (all counters
zero), as allocated by the constructor. -/
def mkCountSketch (t b : ℕ) (bucket : ℕ → ℕ → ℕ) (sgn : ℕ → ℕ → ℤ) :
    CountSketch :=
  ⟨t, b, bucket, sgn, List.replicate t (List.replicate b 0)⟩

/-! ### Heavy-hitter min-heap (spec 4.C)

`priority_queue.h` is not in the repository.  Modelled from the spec: a
bounded min-heap over `(key hash, count)` pairs ordered by count ascending,
kept as an ordered list whose head is the minimum, with at most one entry per
key hash. -/

/-- Modelled from the spec: `remove_if_exists` — drop any entry with the given
key hash (no-op when absent). -/
def hhRemove (q : List (ℕ × ℤ)) (k : ℕ) : List (ℕ × ℤ) :=
  q.filter (fun e => e.1 != k)

/-- Modelled from the spec: `pushp` — insert an entry at its ordered position
(count ascending). -/
def hhPush (q : List (ℕ × ℤ)) (k : ℕ) (c : ℤ) : List (ℕ × ℤ) :=
  List.orderedInsert (fun a b => a.2 ≤ b.2) (k, c) q

/-- Modelled from the spec: `top` — the minimum-count entry (heap root). -/
def hhTop (q : List (ℕ × ℤ)) : ℕ × ℤ :=
  q.headD (0, 0)

/-- Modelled from the spec: `pop` — remove the heap root. -/
def hhPop (q : List (ℕ × ℤ)) : List (ℕ × ℤ) :=
  q.tail

/-! ### Substream summary (`confluo_substream_summary`) -/

/-- State of `confluo_substream_summary<counter_t>`: threshold `α`, capacity
`k`, the L2² accumulator, the Count-Sketch, the approximate heavy-hitter slot
array, the exact heavy-hitter heap, the slot-index hash and the mode flag. -/
structure SubstreamSummary where
  hh_threshold : ℚ
  num_hh : ℕ
  l2_squared : ℤ
  sketch : CountSketch
  heavy_hitters : List ℕ
  hhs_precise : List (ℕ × ℤ)
  hh_hash : ℕ → ℕ
  use_precise_hh : Bool

/-- A default substream summary (used only as a `getD` fallback). -/
def defaultSS : SubstreamSummary :=
  ⟨0, 0, 0, ⟨0, 0, fun _ _ => 0, fun _ _ => 0, []⟩, [], [], fun _ => 0, true⟩

/-- `confluo_substream_summary::l2_squared_update`:
`(c+1)^2 - c^2 = 2*c + 1`. -/
def l2_squared_update (old_count : ℤ) : ℤ :=
  2 * old_count + 1

/-- `confluo_substream_summary::update_hh_pq` (the sketch passed in is the
one *after* `update_and_estimate`, as in the source, where `sketch_` has
already been mutated). -/
def update_hh_pq (sk : CountSketch) (q : List (ℕ × ℤ)) (num_hh : ℕ)
    (threshold : ℚ) (key_hash : ℕ) (count : ℤ) (l2 : ℚ) : List (ℕ × ℤ) :=
  if (count : ℚ) < threshold * l2 then q
  else if q.length < num_hh then hhPush (hhRemove q key_hash) key_hash count
  else if csEstimate sk (hhTop q).1 < count then
    hhPush (hhRemove (hhPop q) key_hash) key_hash count
  else q

/-- `confluo_substream_summary::update_hh_approx`, single-threaded (the CAS
always succeeds).  An empty slot array (k = 0) is left unchanged — in C++ the
`% heavy_hitters_.size()` would be undefined there. -/
def update_hh_approx (sk : CountSketch) (slots : List ℕ) (hh_hash : ℕ → ℕ)
    (threshold : ℚ) (key_hash : ℕ) (count : ℤ) (l2 : ℚ) : List ℕ :=
  if (count : ℚ) < threshold * l2 then slots
  else if slots.length = 0 then slots
  else
    let idx := hh_hash key_hash % slots.length
    let prev := slots.getD idx 0
    if prev = key_hash then slots
    else if csEstimate sk prev > count then slots
    else slots.set idx key_hash

/-- `confluo_substream_summary::update`: take the pre-update estimate,
update the sketch, fetch-and-add `2*c_old + 1` into the L2² accumulator,
form `ℓ = sqrt(old + delta)` and dispatch to the exact or approximate
heavy-hitter update with count `c_old + 1`. -/
def ssUpdate (sqrtFn : ℤ → ℚ) (ss : SubstreamSummary) (key_hash : ℕ) :
    SubstreamSummary :=
  let old_count := csEstimate ss.sketch key_hash
  let sk := csUpdate ss.sketch key_hash 1
  let upd := l2_squared_update old_count
  let l2sq := ss.l2_squared + upd
  let new_l2 := sqrtFn l2sq
  if ss.use_precise_hh then
    { ss with
      sketch := sk
      l2_squared := l2sq
      hhs_precise := update_hh_pq sk ss.hhs_precise ss.num_hh ss.hh_threshold
        key_hash (old_count + 1) new_l2 }
  else
    { ss with
      sketch := sk
      l2_squared := l2sq
      heavy_hitters := update_hh_approx sk ss.heavy_hitters ss.hh_hash
        ss.hh_threshold key_hash (old_count + 1) new_l2 }

/-- `confluo_substream_summary` constructor: empty sketch, `k` approximate
slots value-initialised to `0`, empty heap, zero L2² accumulator. -/
def mkSubstream (t b k : ℕ) (a : ℚ) (precise : Bool) (bucket : ℕ → ℕ → ℕ)
    (sgn : ℕ → ℕ → ℤ) (hh : ℕ → ℕ) : SubstreamSummary :=
  ⟨a, k, 0, mkCountSketch t b bucket sgn, List.replicate k 0, [], hh, precise⟩

/-! ### The older `stream_summary` (`stream_summary.h`) -/

/-- State of `stream_summary<T, counter_t>` with `T = ℕ` key hashes.  It has
the same fields as `confluo_substream_summary` but no threshold, and its
`update` never touches the L2² accumulator. -/
structure StreamSummary where
  num_hh : ℕ
  l2_squared : ℤ
  sketch : CountSketch
  heavy_hitters : List ℕ
  hhs_precise : List (ℕ × ℤ)
  hh_hash : ℕ → ℕ
  use_precise_hh : Bool

/-- Modelled from the spec: `pq::update(key, count, upsert)` used by
`stream_summary::update_hh_pq` (`priority_queue.h` is not in the
repository).  Per the call-site comments: when the key exists its priority is
replaced by `count` (returning `true`); otherwise it is inserted only when
`upsert` is set. -/
def pqUpdate (q : List (ℕ × ℤ)) (key : ℕ) (c : ℤ) (upsert : Bool) :
    Bool × List (ℕ × ℤ) :=
  if q.any (fun e => e.1 == key) then (true, hhPush (hhRemove q key) key c)
  else if upsert then (true, hhPush q key c)
  else (false, q)

/-- `stream_summary::update_hh_pq`: upsert while below capacity; at capacity
update in place, and otherwise displace the root when the new count beats the
sketch's current estimate of the root's key.  Note: no threshold test and no
use of the L2 norm. -/
def stUpdateHhPq (sk : CountSketch) (q : List (ℕ × ℤ)) (num_hh : ℕ)
    (key : ℕ) (count : ℤ) : List (ℕ × ℤ) :=
  if q.length < num_hh then (pqUpdate q key count true).2
  else
    let r := pqUpdate q key count false
    if !r.1 && decide (csEstimate sk (hhTop r.2).1 < count) then
      hhPush (hhPop r.2) key count
    else r.2

/-- `stream_summary::update_hh_approx`, single-threaded (as
`update_hh_approx` above but without the threshold test). -/
def stUpdateHhApprox (sk : CountSketch) (slots : List ℕ) (hh_hash : ℕ → ℕ)
    (key : ℕ) (count : ℤ) : List ℕ :=
  if slots.length = 0 then slots
  else
    let idx := hh_hash key % slots.length
    let prev := slots.getD idx 0
    if prev = key then slots
    else if csEstimate sk prev > count then slots
    else slots.set idx key

/-- `stream_summary::update(key, incr)`: `update_and_estimate` followed by the
heavy-hitter update with count `c_old + incr`.  The `l2_squared_` field is
never written. -/
def stUpdate (st : StreamSummary) (key : ℕ) (incr : ℤ) : StreamSummary :=
  let old_count := csEstimate st.sketch key
  let sk := csUpdate st.sketch key incr
  if st.use_precise_hh then
    { st with
      sketch := sk
      hhs_precise := stUpdateHhPq sk st.hhs_precise st.num_hh key
        (old_count + incr) }
  else
    { st with
      sketch := sk
      heavy_hitters := stUpdateHhApprox sk st.heavy_hitters st.hh_hash key
        (old_count + incr) }

/-! ### Universal sketch (`confluo_universal_sketch`) -/

/-- State of `confluo_universal_sketch<counter_t>`: the vector of substream
summaries, the number of layer hashes the constructor materialised
(`l - 1` in `size_t` arithmetic), the layer-hash family
(`layer_hashes_.hash i key`, modelled from the spec since `hash_manager.h` is
not in the repository), the mode flag and the validity flag. -/
structure UniversalSketch where
  substreams : List SubstreamSummary
  num_layer_hashes : ℕ
  layer_hashes : ℕ → ℕ → ℕ
  precise_hh : Bool
  is_valid : Bool

/-- `confluo_universal_sketch` constructor: `l` identically-parameterised
substream summaries, `l - 1` layer hashes (`size_t` subtraction, so `l = 0`
wraps to `2^64 - 1`), validity flag `true`.  No parameter validation of any
kind is performed. -/
def mkUniversalSketch (l t b k : ℕ) (a : ℚ) (precise : Bool)
    (bucket : ℕ → ℕ → ℕ) (sgn : ℕ → ℕ → ℤ) (hh : ℕ → ℕ)
    (lh : ℕ → ℕ → ℕ) : UniversalSketch :=
  ⟨List.replicate l (mkSubstream t b k a precise bucket sgn hh),
    (l + (2 ^ 64 - 1)) % 2 ^ 64, lh, precise, true⟩

/-- `confluo_universal_sketch::is_valid`. -/
def usIsValid (s : UniversalSketch) : Bool :=
  s.is_valid

/-- `confluo_universal_sketch::invalidate`: CAS true→false, returning whether
the caller performed the transition, together with the post state. -/
def usInvalidate (s : UniversalSketch) : Bool × UniversalSketch :=
  if s.is_valid then (true, { s with is_valid := false }) else (false, s)

/-- `confluo_universal_sketch::to_bool`: `hashed_value % 2`. -/
def to_bool (hashed_value : ℕ) : ℕ :=
  hashed_value % 2

/-- The propagation loop of `confluo_universal_sketch::update` from absolute
layer index `i ≥ 1`: layer `i` is updated while `to_bool(layer_hash[i-1](key))`
holds, and the loop stops at the first failure. -/
def usUpdateFrom (sqrtFn : ℤ → ℚ) (lh : ℕ → ℕ → ℕ) (key : ℕ) :
    ℕ → List SubstreamSummary → List SubstreamSummary
  | _, [] => []
  | i, ss :: rest =>
      if to_bool (lh (i - 1) key) = 1 then
        ssUpdate sqrtFn ss key :: usUpdateFrom sqrtFn lh key (i + 1) rest
      else ss :: rest

/-- `confluo_universal_sketch::update` at key-hash level: layer 0 is always
updated, then the propagation loop runs from layer 1.  (With no layers the
C++ access `substream_summaries_[0]` would be out of bounds; the embedding
leaves the empty vector unchanged.) -/
def usUpdate (sqrtFn : ℤ → ℚ) (s : UniversalSketch) (key : ℕ) :
    UniversalSketch :=
  { s with
    substreams :=
      match s.substreams with
      | [] => []
      | ss0 :: rest =>
          ssUpdate sqrtFn ss0 key ::
            usUpdateFrom sqrtFn s.layer_hashes key 1 rest }

/-- Fold a single-threaded sequence of key-hash ingests. -/
def runUpdates (sqrtFn : ℤ → ℚ) (s : UniversalSketch) (ks : List ℕ) :
    UniversalSketch :=
  ks.foldl (usUpdate sqrtFn) s

/-- `allOnes lh key i n`: the parity bits of `lh i key, …, lh (i+n-1) key`
all equal 1. -/
def allOnes (lh : ℕ → ℕ → ℕ) (key : ℕ) : ℕ → ℕ → Bool
  | _, 0 => true
  | i, n + 1 => (lh i key % 2 == 1) && allOnes lh key (i + 1) n

/-- Layer `i` ingests `key`: all of `layer_hash[0..i-1]` have parity bit 1
(so layer 0 always ingests). -/
def layerIngests (lh : ℕ → ℕ → ℕ) (key : ℕ) (i : ℕ) : Bool :=
  allOnes lh key 0 i

/-- The sub-sequence of a key-hash stream ingested by layer `i`. -/
def ingestedAt (lh : ℕ → ℕ → ℕ) (ks : List ℕ) (i : ℕ) : List ℕ :=
  ks.filter (fun k => layerIngests lh k i)

/-- Every key hash held in layer `i`'s exact heavy-hitter heap was ingested
(against the layer-hash family `lh`) by every layer `j ≤ i` of the stream
`ks` processed so far. -/
def HeapOrigin (lh : ℕ → ℕ → ℕ) (ks : List ℕ) (s : UniversalSketch) : Prop :=
  ∀ i ss, s.substreams.get? i = some ss →
    ∀ e ∈ ss.hhs_precise, ∀ j, j ≤ i → e.1 ∈ ingestedAt lh ks j

/-! ### `evaluate` -/

/-- Per-layer signed contribution in exact mode: the source computes
`(1 - 2 * to_bool(layer_hashes_.hash(i, key))) * g(count)` for each heap
entry.  (`1 - 2*to_bool(...)` is `size_t` arithmetic in C++; for the default
integral `g_ret_t` its two's-complement value is exactly `1 - 2*parity`,
which is what the embedding uses over `ℤ`.) -/
def layerSumPrecise (lhI : ℕ → ℕ) (g : ℤ → ℤ) (q : List (ℕ × ℤ)) : ℤ :=
  (q.map (fun e => (1 - 2 * ((to_bool (lhI e.1) : ℕ) : ℤ)) * g e.2)).sum

/-- Per-layer signed contribution in approximate mode: estimate at the stored
slot value, skip slots equal to the empty-key sentinel. -/
def layerSumApprox (emptyHash : ℕ) (sk : CountSketch) (lhI : ℕ → ℕ)
    (g : ℤ → ℤ) (slots : List ℕ) : ℤ :=
  (slots.map (fun h =>
    if h ≠ emptyHash then
      (1 - 2 * ((to_bool (lhI h) : ℕ) : ℤ)) * g (csEstimate sk h)
    else 0)).sum

/-- Last-layer (unsigned) contribution in exact mode: `g` over the stored
heap priorities. -/
def basePrecise (g : ℤ → ℤ) (q : List (ℕ × ℤ)) : ℤ :=
  (q.map (fun e => g e.2)).sum

/-- Last-layer contribution in approximate mode, exactly as the source reads:
a slot contributes when its value differs from `0` (not from the sentinel),
and the estimate is taken at the literal key hash `0` (`size_t hh_hash = 0`),
not at the slot's stored value. -/
def baseApprox (g : ℤ → ℤ) (sk : CountSketch) (slots : List ℕ) : ℤ :=
  (slots.map (fun h => if h ≠ 0 then g (csEstimate sk 0) else 0)).sum

/-- The `while (substream_i-- > 0)` loop of `evaluate`: starting from the
accumulator for layers `≥ i`, fold layers `i-1, …, 0`, doubling the
accumulator and adding the layer's signed sum.  Out-of-bounds vector access
is surfaced as `none`. -/
def evalLoop (emptyHash : ℕ) (s : UniversalSketch) (g : ℤ → ℤ) :
    ℕ → ℤ → Option ℤ
  | 0, acc => some acc
  | i + 1, acc =>
      match s.substreams.get? i with
      | none => none
      | some ss =>
          let t :=
            if s.precise_hh then
              layerSumPrecise (s.layer_hashes i) g ss.hhs_precise
            else
              layerSumApprox emptyHash ss.sketch (s.layer_hashes i) g
                ss.heavy_hitters
          evalLoop emptyHash s g i (2 * acc + t)

/-- `confluo_universal_sketch::evaluate(g, nlayers)` with every vector access
checked.  `substream_i = nlayers - 1` is `size_t` arithmetic, so `nlayers = 0`
wraps to `2^64 - 1`.  `emptyHash` is the value of `byte_string().hash()`
(modelled from the spec: `byte_string` is not in the repository). -/
def usEvaluate (emptyHash : ℕ) (s : UniversalSketch) (g : ℤ → ℤ)
    (nlayers : ℕ) : Option ℤ :=
  let subI := (nlayers + (2 ^ 64 - 1)) % 2 ^ 64
  match s.substreams.get? subI with
  | none => none
  | some last =>
      let base :=
        if s.precise_hh then basePrecise g last.hhs_precise
        else baseApprox g last.sketch last.heavy_hitters
      evalLoop emptyHash s g subI base

/-- The spec's recursion, exact mode, indexed from the top: `specSAux top j`
is `S_(top - j)`, i.e. `specSAux top 0` is the unsigned base sum of layer
`top = nlayers - 1` and `specSAux top (j+1) = 2 * specSAux top j + T_(top-j-1)`. -/
def specSAux (s : UniversalSketch) (g : ℤ → ℤ) (top : ℕ) : ℕ → ℤ
  | 0 => basePrecise g (s.substreams.getD top defaultSS).hhs_precise
  | j + 1 =>
      2 * specSAux s g top j +
        layerSumPrecise (s.layer_hashes (top - (j + 1))) g
          (s.substreams.getD (top - (j + 1)) defaultSS).hhs_precise

/-- The spec's `S_i` for `evaluate(g, nlayers)` in exact mode. -/
def specS (s : UniversalSketch) (g : ℤ → ℤ) (nlayers i : ℕ) : ℤ :=
  specSAux s g (nlayers - 1) (nlayers - 1 - i)

/-- The claim's reading of the approximate last layer: skip slots equal to
the empty-key sentinel, estimate at the slot's stored key hash.  (Stated from
the spec's words for comparison with `baseApprox`, which follows the
source.) -/
def specApproxLastLayer (emptyHash : ℕ) (g : ℤ → ℤ) (sk : CountSketch)
    (slots : List ℕ) : ℤ :=
  (slots.map (fun h => if h ≠ emptyHash then g (csEstimate sk h) else 0)).sum

/-! ### `create_parameterized` -/

/-- `confluo_universal_sketch::create_parameterized`.  The helpers
`count_sketch::error_margin_to_width` (`⌈e/ε²⌉`) and
`count_sketch::perror_to_depth` (`⌈log(1/γ)⌉`) live in the missing
`count_sketch.h` and are taken as abstract parameters `emw`/`ptd`; likewise
`sizeofSizeField` stands for C++'s `sizeof(column.type().size)` — the byte
size of the *field* `size`, a constant independent of the column's actual
byte width `columnByteWidth`.  Exactly as in the source, the layer count is
`8 * sizeof(column.type().size)` and the constructor is called as
`{nlayers, error_margin_to_width(ε), perror_to_depth(γ), k, a, ...}`, so
`emw ε` lands in the depth slot `t` and `ptd γ` in the width slot `b`. -/
def create_parameterized (emw ptd : ℚ → ℕ) (sizeofSizeField : ℕ)
    (epsilon gamma : ℚ) (k : ℕ) (a : ℚ) (columnByteWidth : ℕ)
    (bucket : ℕ → ℕ → ℕ) (sgn : ℕ → ℕ → ℤ) (hh : ℕ → ℕ)
    (lh : ℕ → ℕ → ℕ) : UniversalSketch :=
  let nlayers := 8 * sizeofSizeField
  mkUniversalSketch nlayers (emw epsilon) (ptd gamma) k a true bucket sgn hh lh

/-! ### Steady-state operation alphabet (for the lifecycle claims) -/

/-- The mutating steady-state operations of the public interface.  `estimate`,
`evaluate`, `storage_size` and `is_valid` read the state without writing it,
so they need no transition. -/
inductive UsOp where
  | ingest (key : ℕ) : UsOp
  | invalidateOp : UsOp

/-- State transition of one operation. -/
def applyOp (sqrtFn : ℤ → ℚ) (s : UniversalSketch) : UsOp → UniversalSketch
  | UsOp.ingest k => usUpdate sqrtFn s k
  | UsOp.invalidateOp => (usInvalidate s).2

/-- Run a sequence of operations. -/
def applyOps (sqrtFn : ℤ → ℚ) (s : UniversalSketch) (ops : List UsOp) :
    UniversalSketch :=
  ops.foldl (applyOp sqrtFn) s

/-! ### Concrete instances used in counterexamples and witnesses -/

/-- A degenerate stand-in for `std::sqrt` (the heavy-hitter threshold tests
in the instances below use threshold 0, so the value is irrelevant). -/
def czero : ℤ → ℚ := fun _ => 0

/-- Bucket hash sending key `k` to `k % 2` (pairwise-independent instance). -/
def exBucket : ℕ → ℕ → ℕ := fun _ k => k % 2

/-- Sign hash that is constantly `+1`. -/
def exSgnOne : ℕ → ℕ → ℤ := fun _ _ => 1

/-- Sign hash giving `+1` to key `0` and `-1` to every other key. -/
def exSgnSplit : ℕ → ℕ → ℤ := fun _ k => if k = 0 then 1 else -1

/-- Identity hash. -/
def exId : ℕ → ℕ := fun k => k

/-- Layer hash whose parity bit is the key's parity. -/
def exLh : ℕ → ℕ → ℕ := fun _ k => k

/-- A `stream_summary` with a 1×1 all-`+1` sketch, one approximate slot, an
empty heap and a zero L2² accumulator, in exact mode. -/
def exStream : StreamSummary :=
  ⟨1, 0, mkCountSketch 1 1 (fun _ _ => 0) exSgnOne, [0], [], exId, true⟩

/-- A `confluo_substream_summary` with a 1×1 sketch whose sign hash is `+1`
for key `0` and `-1` for key `1`, threshold `0`, capacity `0`. -/
def exSubSplit : SubstreamSummary :=
  ⟨0, 0, 0, mkCountSketch 1 1 (fun _ _ => 0) exSgnSplit, [], [], exId, true⟩

/-- A faithful model of `std::sqrt` on the integer arguments arising below
(`0` and `1`, both perfect squares, on which `Nat.sqrt` is exact). -/
def intSqrt : ℤ → ℚ := fun n => ((Nat.sqrt n.toNat : ℕ) : ℚ)

/-- A freshly constructed `confluo_substream_summary` with the legal
parameters `d = 1`, `w = 1`, `k = 1`, `α = 1 ∈ (0, 1]`, exact mode, whose
sign hash is `+1` for key `0` and `-1` for every other key. -/
def exSubLegal : SubstreamSummary :=
  mkSubstream 1 1 1 1 true (fun _ _ => 0) exSgnSplit exId

/-- A 1×2 Count-Sketch holding counters `[10, 3]` with all-`+1` signs and
bucket hash `k % 2`: `estimate 0 = 10`, `estimate 5 = 3`, `estimate 7 = 3`. -/
def exSketch12 : CountSketch := ⟨1, 2, exBucket, exSgnOne, [[10, 3]]⟩

/-- An approximate-mode substream whose two slots hold key hashes `5` and
`7`. -/
def exApproxSub : SubstreamSummary :=
  ⟨0, 2, 0, exSketch12, [5, 7], [], exId, false⟩

/-- A one-layer approximate-mode universal sketch. -/
def exApprox : UniversalSketch := ⟨[exApproxSub], 0, exLh, false, true⟩

/-- Exact-mode substream whose heap holds `(1, 4)`. -/
def exPreciseSub0 : SubstreamSummary := ⟨0, 2, 0, exSketch12, [], [(1, 4)], exId, true⟩

/-- Exact-mode substream whose heap holds `(2, 5)`. -/
def exPreciseSub1 : SubstreamSummary := ⟨0, 2, 0, exSketch12, [], [(2, 5)], exId, true⟩

/-- A two-layer exact-mode universal sketch with populated heaps. -/
def exPrecise : UniversalSketch :=
  ⟨[exPreciseSub0, exPreciseSub1], 1, exLh, true, true⟩

/-- Exact-mode substream with an empty heap. -/
def exEmptySub : SubstreamSummary := ⟨0, 2, 0, exSketch12, [], [], exId, true⟩

/-- A freshly-constructed two-layer exact-mode universal sketch (all heaps
empty, valid). -/
def exEmpty2 : UniversalSketch := ⟨[exEmptySub, exEmptySub], 1, exLh, true, true⟩

/-! ## Helper lemmas -/

/-- The L2² accumulator effect of `confluo_substream_summary::update` in
either heavy-hitter mode. -/
lemma ssUpdate_l2_squared (sqrtFn : ℤ → ℚ) (ss : SubstreamSummary)
    (key : ℕ) :
    (ssUpdate sqrtFn ss key).l2_squared =
      ss.l2_squared + (2 * csEstimate ss.sketch key + 1) := by
  unfold ssUpdate l2_squared_update
  by_cases h : ss.use_precise_hh <;> simp [h]

/-- `stream_summary::update` never writes the L2² accumulator. -/
lemma stUpdate_l2_squared (st : StreamSummary) (key : ℕ) (incr : ℤ) :
    (stUpdate st key incr).l2_squared = st.l2_squared := by
  unfold stUpdate
  by_cases h : st.use_precise_hh <;> simp [h]

/-! ## C5 -/

/-- C5 (corrected): `confluo_substream_summary::update` adds exactly
`2*c_old + 1 = (c_old+1)² - c_old²` to the L2² accumulator on every ingest,
in either heavy-hitter mode; `stream_summary::update`, by contrast, leaves
its L2² accumulator untouched on every ingest. -/
theorem c5_l2_squared_faa :
    (∀ (sqrtFn : ℤ → ℚ) (ss : SubstreamSummary) (key : ℕ),
      (ssUpdate sqrtFn ss key).l2_squared =
        ss.l2_squared +
          ((csEstimate ss.sketch key + 1) ^ 2 - csEstimate ss.sketch key ^ 2)) ∧
    (∀ (st : StreamSummary) (key : ℕ) (incr : ℤ),
      (stUpdate st key incr).l2_squared = st.l2_squared) := by
  constructor
  · intro sqrtFn ss key
    rw [ssUpdate_l2_squared]
    ring
  · intro st key incr
    exact stUpdate_l2_squared st key incr

/-- C5 counterexample: on `stream_summary` (one of the claim's cited update
functions) an ingest of key `5` leaves the L2² accumulator at `0`, whereas
the claim demands `prior + (c_old+1)² - c_old² = 1` (here `c_old = 0`). -/
theorem c5_counterexample :
    (stUpdate exStream 5 1).l2_squared = 0 ∧
    exStream.l2_squared +
        ((csEstimate exStream.sketch 5 + 1) ^ 2 -
          csEstimate exStream.sketch 5 ^ 2) = 1 ∧
    (0 : ℤ) ≠ 1 := by
  refine ⟨?_, by decide, by decide⟩
  decide

/-! ## C7 -/

/-- C7 counterexample: on a freshly constructed substream with the legal
parameters `d = 1`, `w = 1`, `k = 1`, `α = 1 ∈ (0, 1]` (first conjunct) whose
sign hash is `+1` on key `0` and `-1` on key `1`, the single-threaded ingest
sequence `[0, 1]` makes the L2² accumulator decrease from `1` to `0`: the
second ingest sees the negative estimate `c_old = -1` and fetch-adds
`2*(-1)+1 = -1`. -/
theorem c7_counterexample :
    (0 < exSubLegal.sketch.depth ∧ 0 < exSubLegal.sketch.width ∧
      0 < exSubLegal.num_hh ∧ 0 < exSubLegal.hh_threshold ∧
      exSubLegal.hh_threshold ≤ 1) ∧
    (ssUpdate intSqrt exSubLegal 0).l2_squared = 1 ∧
    (ssUpdate intSqrt (ssUpdate intSqrt exSubLegal 0) 1).l2_squared = 0 ∧
    ¬ (ssUpdate intSqrt exSubLegal 0).l2_squared ≤
        (ssUpdate intSqrt (ssUpdate intSqrt exSubLegal 0) 1).l2_squared := by
  refine ⟨⟨by decide, by decide, by decide, by decide, by decide⟩,
    by decide, by decide, by decide⟩

/-- C7 (corrected): the L2² accumulator is non-decreasing across every update
whose pre-update Count-Sketch estimate is non-negative; an update with a
negative pre-update estimate `c_old ≤ -1` decreases it (by `|2*c_old + 1|`),
as the counterexample exhibits. -/
theorem c7_l2_squared_monotone (sqrtFn : ℤ → ℚ) (ss : SubstreamSummary)
    (key : ℕ) (h : 0 ≤ csEstimate ss.sketch key) :
    ss.l2_squared ≤ (ssUpdate sqrtFn ss key).l2_squared := by
  rw [ssUpdate_l2_squared]
  linarith

/-- C7 witness: the monotonicity theorem applied to a concrete legally
parameterised state whose pre-update estimate is `0`. -/
theorem c7_witness :
    0 ≤ csEstimate exSubLegal.sketch 0 ∧
    exSubLegal.l2_squared ≤ (ssUpdate intSqrt exSubLegal 0).l2_squared :=
  ⟨by decide, c7_l2_squared_monotone intSqrt exSubLegal 0 (by decide)⟩

/-! ## C8 -/

/-- C8 counterexample: constructing a universal sketch with `α = 2`
(outside `(0, 1]`) does not fail — it produces an instance whose validity
flag is `true`. -/
theorem c8_counterexample :
    (mkUniversalSketch 2 1 1 1 2 true exBucket exSgnOne exId exLh).is_valid =
      true ∧
    ¬ ((0 : ℚ) < 2 ∧ (2 : ℚ) ≤ 1) := by
  exact ⟨rfl, by norm_num⟩

/-- C8 (corrected): the `confluo_universal_sketch` constructor performs no
parameter validation at all: for every choice of `l`, `t`, `b`, `k` and `a`
(including zero sizes and `a` outside `(0, 1]`) it synchronously produces an
instance with validity flag `true`, `l` substream summaries, and a layer-hash
count of `l - 1` computed in `size_t` arithmetic (so `l = 0` wraps to
`2^64 - 1`). -/
theorem c8_no_validation (l t b k : ℕ) (a : ℚ) (precise : Bool)
    (bucket : ℕ → ℕ → ℕ) (sgn : ℕ → ℕ → ℤ) (hh : ℕ → ℕ)
    (lh : ℕ → ℕ → ℕ) :
    (mkUniversalSketch l t b k a precise bucket sgn hh lh).is_valid = true ∧
    (mkUniversalSketch l t b k a precise bucket sgn hh lh).substreams.length =
      l ∧
    (mkUniversalSketch l t b k a precise bucket sgn hh lh).num_layer_hashes =
      (l + (2 ^ 64 - 1)) % 2 ^ 64 := by
  refine ⟨rfl, ?_, rfl⟩
  simp [mkUniversalSketch]

/-! ## C9 -/

/-- Every mutating steady-state operation preserves an already-false validity
flag (updates never write it; a CAS from `false` fails). -/
lemma applyOp_preserves_invalid (sqrtFn : ℤ → ℚ) (s : UniversalSketch)
    (op : UsOp) (h : s.is_valid = false) :
    (applyOp sqrtFn s op).is_valid = false := by
  cases op with
  | ingest k => simpa [applyOp, usUpdate] using h
  | invalidateOp => simp [applyOp, usInvalidate, h]

/-- Sequences of operations preserve an already-false validity flag. -/
lemma applyOps_preserves_invalid (sqrtFn : ℤ → ℚ) (ops : List UsOp) :
    ∀ s : UniversalSketch, s.is_valid = false →
      (applyOps sqrtFn s ops).is_valid = false := by
  induction ops with
  | nil => intro s h; simpa [applyOps] using h
  | cons op rest ih =>
      intro s h
      have h1 := applyOp_preserves_invalid sqrtFn s op h
      simpa [applyOps] using ih (applyOp sqrtFn s op) h1

/-- C9 (confirmed): `invalidate` is a one-shot CAS true→false: on a valid
sketch it returns `true` and clears the flag; on an invalid sketch it returns
`false` and changes nothing; and once the flag is `false`, `is_valid` returns
`false` after any subsequent sequence of mutating operations. -/
theorem c9_invalidate_one_shot (sqrtFn : ℤ → ℚ) (s : UniversalSketch) :
    (s.is_valid = true →
      (usInvalidate s).1 = true ∧ (usInvalidate s).2.is_valid = false) ∧
    (s.is_valid = false →
      (usInvalidate s).1 = false ∧ (usInvalidate s).2 = s) ∧
    (∀ ops : List UsOp, s.is_valid = false →
      usIsValid (applyOps sqrtFn s ops) = false) := by
  refine ⟨?_, ?_, ?_⟩
  · intro h
    simp [usInvalidate, h]
  · intro h
    simp [usInvalidate, h]
  · intro ops h
    exact applyOps_preserves_invalid sqrtFn ops s h

/-- C9 witness: the one-shot CAS applied to a concrete valid sketch, and the
permanence of invalidation applied after its CAS. -/
theorem c9_witness :
    ((usInvalidate exEmpty2).1 = true ∧
      (usInvalidate exEmpty2).2.is_valid = false) ∧
    usIsValid
        (applyOps czero (usInvalidate exEmpty2).2
          [UsOp.ingest 3, UsOp.invalidateOp]) = false := by
  refine ⟨(c9_invalidate_one_shot czero exEmpty2).1 rfl, ?_⟩
  exact (c9_invalidate_one_shot czero (usInvalidate exEmpty2).2).2.2
    [UsOp.ingest 3, UsOp.invalidateOp]
    ((c9_invalidate_one_shot czero exEmpty2).1 rfl).2

/-! ## C6 -/

/-- C6 (confirmed): in exact mode, an update with pre-update estimate `c_old`
and post-update L2 estimate `ℓ = sqrtFn(l2² + 2*c_old + 1)` leaves the heap
unchanged when `c_old + 1 < α·ℓ`; otherwise, below capacity it removes any
prior entry for the key hash and pushes `(key, c_old+1)`; at capacity it
pops the root, removes any prior entry for the key hash and pushes
`(key, c_old+1)` exactly when the (post-update) sketch estimate of the root's
key is less than `c_old + 1`; and otherwise leaves the heap unchanged. -/
theorem c6_update_hh_pq_cases (sqrtFn : ℤ → ℚ) (ss : SubstreamSummary)
    (key : ℕ) (hmode : ss.use_precise_hh = true) :
    (ssUpdate sqrtFn ss key).hhs_precise =
      if ((csEstimate ss.sketch key + 1 : ℤ) : ℚ) <
          ss.hh_threshold *
            sqrtFn (ss.l2_squared + (2 * csEstimate ss.sketch key + 1)) then
        ss.hhs_precise
      else if ss.hhs_precise.length < ss.num_hh then
        hhPush (hhRemove ss.hhs_precise key) key (csEstimate ss.sketch key + 1)
      else if csEstimate (csUpdate ss.sketch key 1) (hhTop ss.hhs_precise).1 <
          csEstimate ss.sketch key + 1 then
        hhPush (hhRemove (hhPop ss.hhs_precise) key) key
          (csEstimate ss.sketch key + 1)
      else ss.hhs_precise := by
  simp [ssUpdate, update_hh_pq, l2_squared_update, hmode]

/-- C6 witness: the case analysis evaluated on a concrete exact-mode
substream (the threshold passes, the heap is at capacity and the incumbent
root estimate is not beaten, so the heap stays empty). -/
theorem c6_witness :
    exSubSplit.use_precise_hh = true ∧
    (ssUpdate czero exSubSplit 0).hhs_precise =
      if ((csEstimate exSubSplit.sketch 0 + 1 : ℤ) : ℚ) <
          exSubSplit.hh_threshold *
            czero (exSubSplit.l2_squared +
              (2 * csEstimate exSubSplit.sketch 0 + 1)) then
        exSubSplit.hhs_precise
      else if exSubSplit.hhs_precise.length < exSubSplit.num_hh then
        hhPush (hhRemove exSubSplit.hhs_precise 0) 0
          (csEstimate exSubSplit.sketch 0 + 1)
      else if csEstimate (csUpdate exSubSplit.sketch 0 1)
          (hhTop exSubSplit.hhs_precise).1 <
          csEstimate exSubSplit.sketch 0 + 1 then
        hhPush (hhRemove (hhPop exSubSplit.hhs_precise) 0) 0
          (csEstimate exSubSplit.sketch 0 + 1)
      else exSubSplit.hhs_precise :=
  ⟨rfl, c6_update_hh_pq_cases czero exSubSplit 0 rfl⟩

/-! ## C4 -/

/-- C4 (code bug): `create_parameterized` ignores the column's byte width —
the layer count is `8 * sizeof(column.type().size)`, a constant, not
`8 * column_byte_width` — and it passes `error_margin_to_width(ε)` into the
constructor's depth slot and `perror_to_depth(γ)` into its width slot,
swapped relative to the claim.  Stated for every choice of the (missing)
helper functions `emw`/`ptd` and of the byte size `c` of the `size` field:
whenever the column's byte width differs from `c`, the produced layer count
differs from the claimed `8 * W`, and every layer's sketch has depth `emw ε`
and width `ptd γ`. -/
theorem c4_create_parameterized (emw ptd : ℚ → ℕ) (c : ℕ)
    (epsilon gamma : ℚ) (k : ℕ) (a : ℚ) (W : ℕ) (bucket : ℕ → ℕ → ℕ)
    (sgn : ℕ → ℕ → ℤ) (hh : ℕ → ℕ) (lh : ℕ → ℕ → ℕ) (hW : c ≠ W) :
    (create_parameterized emw ptd c epsilon gamma k a W bucket sgn hh
        lh).substreams.length = 8 * c ∧
    (create_parameterized emw ptd c epsilon gamma k a W bucket sgn hh
        lh).substreams.length ≠ 8 * W ∧
    (create_parameterized emw ptd c epsilon gamma k a W bucket sgn hh
        lh).substreams =
      List.replicate (8 * c)
        (mkSubstream (emw epsilon) (ptd gamma) k a true bucket sgn hh) ∧
    (mkSubstream (emw epsilon) (ptd gamma) k a true bucket sgn
        hh).sketch.depth = emw epsilon ∧
    (mkSubstream (emw epsilon) (ptd gamma) k a true bucket sgn
        hh).sketch.width = ptd gamma := by
  refine ⟨?_, ?_, rfl, rfl, rfl⟩
  · simp [create_parameterized, mkUniversalSketch]
  · simp [create_parameterized, mkUniversalSketch]
    omega

/-- C4 witness: with an 8-byte `size` field and a 4-byte column, the sketch
gets 64 layers, not the claimed 32, and concrete helper outputs land in the
swapped slots. -/
theorem c4_witness :
    (8 : ℕ) ≠ 4 ∧
    (create_parameterized (fun _ => 11) (fun _ => 5) 8 (1/8) (1/100) 16
        (1/10) 4 exBucket exSgnOne exId exLh).substreams.length = 8 * 8 ∧
    (create_parameterized (fun _ => 11) (fun _ => 5) 8 (1/8) (1/100) 16
        (1/10) 4 exBucket exSgnOne exId exLh).substreams.length ≠ 8 * 4 :=
  ⟨by decide,
    (c4_create_parameterized (fun _ => 11) (fun _ => 5) 8 (1/8) (1/100) 16
      (1/10) 4 exBucket exSgnOne exId exLh (by decide)).1,
    (c4_create_parameterized (fun _ => 11) (fun _ => 5) 8 (1/8) (1/100) 16
      (1/10) 4 exBucket exSgnOne exId exLh (by decide)).2.1⟩

/-! ## C2 -/

/-- C2 (code bug): on the last layer in approximate mode the source tests
each slot against the literal `0` instead of the empty-key sentinel and
estimates at the literal key hash `0` instead of the slot's stored value.
On a one-layer sketch whose slots hold `5` and `7`, with sentinel `7`,
`estimate 0 = 10`, `estimate 5 = 3` and `g = id`: the code returns
`10 + 10 = 20` (both slots pass the `≠ 0` test and both contribute
`g(estimate 0)`), while the claimed behaviour — skip the sentinel slot,
estimate at the stored hash — yields `3`. -/
theorem c2_approx_last_layer :
    usEvaluate 7 exApprox (fun c => c) 1 = some 20 ∧
    specApproxLastLayer 7 (fun c => c) exSketch12 [5, 7] = 3 ∧
    (20 : ℤ) ≠ 3 := by
  refine ⟨by decide, by decide, by decide⟩

/-! ## C1 -/

/-- `getD` agrees with a successful `get?`. -/
lemma getD_of_get? {α : Type} (l : List α) (i : ℕ) (d a : α)
    (h : l.get? i = some a) : l.getD i d = a := by
  induction l generalizing i with
  | nil => simp at h
  | cons x xs ih =>
      cases i with
      | zero => simp_all
      | succ n =>
          simp only [List.get?_cons_succ] at h
          simpa using ih n h

/-- A list position below the length is occupied. -/
lemma get?_isSome_of_lt {α : Type} (l : List α) (i : ℕ)
    (h : i < l.length) : ∃ a, l.get? i = some a := by
  cases hg : l.get? i with
  | none => exact absurd (List.get?_eq_none.mp hg) (by omega)
  | some a => exact ⟨a, rfl⟩

/-- The `while (substream_i-- > 0)` loop agrees with the spec's downward
recursion: starting at layer `i ≤ top` with accumulator `S_(top-(top-i))`,
it returns `S_(top-top) = S_0` re-indexed from the top, i.e.
`specSAux top top`. -/
lemma evalLoop_spec (eh : ℕ) (s : UniversalSketch) (g : ℤ → ℤ) (top : ℕ)
    (hp : s.precise_hh = true) (htop : top < s.substreams.length) :
    ∀ i, i ≤ top →
      evalLoop eh s g i (specSAux s g top (top - i)) =
        some (specSAux s g top top) := by
  intro i
  induction i with
  | zero => intro _; simp [evalLoop]
  | succ n ih =>
      intro hle
      have hn : n < s.substreams.length := by omega
      obtain ⟨ss, hss⟩ := get?_isSome_of_lt s.substreams n hn
      have hacc :
          2 * specSAux s g top (top - (n + 1)) +
              layerSumPrecise (s.layer_hashes n) g ss.hhs_precise =
            specSAux s g top (top - n) := by
        have h1 : top - n = top - (n + 1) + 1 := by omega
        have h2 : top - (top - (n + 1) + 1) = n := by omega
        rw [h1, specSAux, h2, getD_of_get? s.substreams n defaultSS ss hss]
      simp only [evalLoop, hss, hp, if_true]
      rw [hacc]
      exact ih (by omega)

/-- C1 (confirmed): in exact mode, for `1 ≤ nlayers ≤ L`,
`evaluate(g, nlayers)` returns `S_0`, where `S_(nlayers-1)` is the unsigned
sum of `g` over the last layer's heap and
`S_i = 2*S_(i+1) + Σ (1 - 2*parity(layer_hash[i](key))) * g(count)` over
layer `i`'s heap — the last two conjuncts state exactly this recursion for
`specS`. -/
theorem c1_evaluate_exact (eh : ℕ) (s : UniversalSketch) (g : ℤ → ℤ)
    (nl : ℕ) (h1 : 1 ≤ nl) (h2 : nl ≤ s.substreams.length)
    (h3 : s.substreams.length ≤ 2 ^ 64) (hp : s.precise_hh = true) :
    usEvaluate eh s g nl = some (specS s g nl 0) ∧
    specS s g nl (nl - 1) =
      basePrecise g (s.substreams.getD (nl - 1) defaultSS).hhs_precise ∧
    (∀ i, i + 1 ≤ nl - 1 →
      specS s g nl i =
        2 * specS s g nl (i + 1) +
          layerSumPrecise (s.layer_hashes i) g
            (s.substreams.getD i defaultSS).hhs_precise) := by
  have hsub : (nl + (2 ^ 64 - 1)) % 2 ^ 64 = nl - 1 := by
    have he : nl + (2 ^ 64 - 1) = (nl - 1) + 2 ^ 64 := by omega
    rw [he, Nat.add_mod_right]
    exact Nat.mod_eq_of_lt (by omega)
  have htop : nl - 1 < s.substreams.length := by omega
  obtain ⟨last, hlast⟩ := get?_isSome_of_lt s.substreams (nl - 1) htop
  refine ⟨?_, ?_, ?_⟩
  · have hbase :
        basePrecise g last.hhs_precise = specSAux s g (nl - 1) 0 := by
      rw [specSAux, getD_of_get? s.substreams (nl - 1) defaultSS last hlast]
    have hmain :=
      evalLoop_spec eh s g (nl - 1) hp htop (nl - 1) (le_refl _)
    rw [Nat.sub_self] at hmain
    simp only [usEvaluate, hsub, hlast, hp, if_true]
    rw [hbase]
    rw [hmain]
    rfl
  · simp [specS, specSAux]
  · intro i hi
    have ha : nl - 1 - i = (nl - 1 - (i + 1)) + 1 := by omega
    have hb : nl - 1 - (nl - 1 - (i + 1) + 1) = i := by omega
    rw [specS, ha, specSAux, hb]
    rfl

/-- C1 witness: evaluation of the concrete two-layer exact-mode sketch:
base layer sum `g(5) = 5`, layer-0 signed sum `-g(4) = -4` (key `1` has
parity bit 1), so the result is `2*5 - 4 = 6`. -/
theorem c1_witness :
    (1 ≤ 2 ∧ 2 ≤ exPrecise.substreams.length ∧
      exPrecise.substreams.length ≤ 2 ^ 64 ∧ exPrecise.precise_hh = true) ∧
    usEvaluate 7 exPrecise (fun c => c) 2 =
      some (specS exPrecise (fun c => c) 2 0) ∧
    usEvaluate 7 exPrecise (fun c => c) 2 = some 6 := by
  refine ⟨⟨by decide, by decide, by decide, rfl⟩, ?_, by decide⟩
  exact (c1_evaluate_exact 7 exPrecise (fun c => c) 2 (by decide) (by decide)
    (by decide) rfl).1

/-! ## C10 -/

/-- The evaluation loop succeeds whenever its starting index is within the
layer vector. -/
lemma evalLoop_isSome (eh : ℕ) (s : UniversalSketch) (g : ℤ → ℤ) :
    ∀ i acc, i ≤ s.substreams.length →
      (evalLoop eh s g i acc).isSome = true := by
  intro i
  induction i with
  | zero => intro acc _; simp [evalLoop]
  | succ n ih =>
      intro acc hle
      obtain ⟨ss, hss⟩ := get?_isSome_of_lt s.substreams n (by omega)
      simp only [evalLoop, hss]
      exact ih _ (by omega)

/-- The evaluation loop from layer `i` reads only layers `< i` and the layer
hashes of indices `< i`. -/
lemma evalLoop_congr (eh : ℕ) (g : ℤ → ℤ) (s s' : UniversalSketch)
    (hpp : s'.precise_hh = s.precise_hh) :
    ∀ i acc,
      (∀ j, j < i → s'.substreams.get? j = s.substreams.get? j) →
      (∀ j, j < i → ∀ x, s'.layer_hashes j x = s.layer_hashes j x) →
      evalLoop eh s' g i acc = evalLoop eh s g i acc := by
  intro i
  induction i with
  | zero => intro acc _ _; rfl
  | succ n ih =>
      intro acc hsub hlh
      have hn : s'.substreams.get? n = s.substreams.get? n :=
        hsub n (by omega)
      have hlm : s'.layer_hashes n = s.layer_hashes n :=
        funext (hlh n (by omega))
      simp only [evalLoop, hn, hpp, hlm]
      cases s.substreams.get? n with
      | none => rfl
      | some ss =>
          exact ih _ (fun j hj => hsub j (by omega))
            (fun j hj => hlh j (by omega))

/-- C10 (confirmed): for `1 ≤ nlayers ≤ L` every access of
`evaluate(g, nlayers)` is in bounds (the result is `some`), and the result
depends only on substream layers `nlayers-1 … 0` and layer hashes
`0 … nlayers-2`; for `nlayers = 0` the unsigned start index
`nlayers - 1` wraps to `2^64 - 1` and the first access is out of bounds, so
evaluation fails. -/
theorem c10_evaluate_bounds (eh : ℕ) (g : ℤ → ℤ) (s : UniversalSketch)
    (nl : ℕ) :
    (1 ≤ nl → nl ≤ s.substreams.length → s.substreams.length ≤ 2 ^ 64 →
      (usEvaluate eh s g nl).isSome = true ∧
      (∀ s' : UniversalSketch, s'.precise_hh = s.precise_hh →
        (∀ j, j < nl → s'.substreams.get? j = s.substreams.get? j) →
        (∀ j, j + 1 < nl → ∀ x, s'.layer_hashes j x = s.layer_hashes j x) →
        usEvaluate eh s' g nl = usEvaluate eh s g nl)) ∧
    (nl = 0 → s.substreams.length < 2 ^ 64 →
      usEvaluate eh s g nl = none) := by
  constructor
  · intro h1 h2 h3
    have hsub : (nl + (2 ^ 64 - 1)) % 2 ^ 64 = nl - 1 := by
      have he : nl + (2 ^ 64 - 1) = (nl - 1) + 2 ^ 64 := by omega
      rw [he, Nat.add_mod_right]
      exact Nat.mod_eq_of_lt (by omega)
    have htop : nl - 1 < s.substreams.length := by omega
    obtain ⟨last, hlast⟩ := get?_isSome_of_lt s.substreams (nl - 1) htop
    constructor
    · simp only [usEvaluate, hsub, hlast]
      exact evalLoop_isSome eh s g (nl - 1) _ (by omega)
    · intro s' hpp hsubs hlh
      have hlast' : s'.substreams.get? (nl - 1) = some last := by
        rw [hsubs (nl - 1) (by omega)]
        exact hlast
      simp only [usEvaluate, hsub, hlast, hlast', hpp]
      exact evalLoop_congr eh g s s' hpp (nl - 1) _
        (fun j hj => hsubs j (by omega)) (fun j hj => hlh j (by omega))
  · intro h0 hlen
    subst h0
    have hsub : (0 + (2 ^ 64 - 1)) % 2 ^ 64 = 2 ^ 64 - 1 := by
      rw [Nat.zero_add]
      exact Nat.mod_eq_of_lt (by omega)
    have hnone : s.substreams.get? (2 ^ 64 - 1) = none :=
      List.get?_eq_none.mpr (by omega)
    simp only [usEvaluate, hsub, hnone]

/-- C10 witness: on the concrete two-layer sketch, `evaluate` succeeds for
`nlayers = 2` and fails (wrapped out-of-bounds start index) for
`nlayers = 0`. -/
theorem c10_witness :
    ((1 ≤ 2 ∧ 2 ≤ exPrecise.substreams.length ∧
        exPrecise.substreams.length ≤ 2 ^ 64) ∧
      (usEvaluate 7 exPrecise (fun c => c) 2).isSome = true) ∧
    (exPrecise.substreams.length < 2 ^ 64 ∧
      usEvaluate 7 exPrecise (fun c => c) 0 = none) :=
  ⟨⟨⟨by decide, by decide, by decide⟩,
      ((c10_evaluate_bounds 7 (fun c => c) exPrecise 2).1 (by decide)
        (by decide) (by decide)).1⟩,
    ⟨by decide,
      (c10_evaluate_bounds 7 (fun c => c) exPrecise 0).2 rfl (by decide)⟩⟩

/-! ## C3 -/

/-- `allOnes lh key i n` holds exactly when every parity bit of
`lh i, …, lh (i+n-1)` at `key` equals 1. -/
lemma allOnes_iff (lh : ℕ → ℕ → ℕ) (key : ℕ) :
    ∀ n i, allOnes lh key i n = true ↔
      ∀ j, j < n → lh (i + j) key % 2 = 1 := by
  intro n
  induction n with
  | zero => intro i; simp [allOnes]
  | succ m ih =>
      intro i
      simp only [allOnes, Bool.and_eq_true, beq_iff_eq]
      constructor
      · rintro ⟨h0, hrest⟩ j hj
        cases j with
        | zero => simpa using h0
        | succ j' =>
            have := (ih (i + 1)).mp hrest j' (by omega)
            have harr : i + (j' + 1) = i + 1 + j' := by omega
            rw [harr]
            exact this
      · intro h
        refine ⟨by simpa using h 0 (by omega), (ih (i + 1)).mpr ?_⟩
        intro j' hj'
        have := h (j' + 1) (by omega)
        have harr : i + (j' + 1) = i + 1 + j' := by omega
        rw [harr] at this
        exact this

/-- The claim's characterisation: layer `i` ingests `key` exactly when the
parity bits of `layer_hash[0..i-1](key)` all equal 1. -/
lemma layerIngests_iff (lh : ℕ → ℕ → ℕ) (key i : ℕ) :
    layerIngests lh key i = true ↔ ∀ j, j < i → lh j key % 2 = 1 := by
  unfold layerIngests
  rw [allOnes_iff lh key i 0]
  constructor
  · intro h j hj
    simpa using h j hj
  · intro h j hj
    simpa using h j hj

/-- Ingestion is downward closed over layers. -/
lemma layerIngests_mono (lh : ℕ → ℕ → ℕ) (key : ℕ) {i j : ℕ} (hji : j ≤ i)
    (h : layerIngests lh key i = true) : layerIngests lh key j = true := by
  rw [layerIngests_iff] at h ⊢
  intro m hm
  exact h m (by omega)

/-- Element `p` of the propagation-loop suffix starting at absolute layer
`i ≥ 1` is updated exactly when the parity bits of
`layer_hash[i-1 .. i-1+p]` all equal 1 (the loop stops at the first 0). -/
lemma usUpdateFrom_get? (f : ℤ → ℚ) (lh : ℕ → ℕ → ℕ) (key : ℕ) :
    ∀ (rest : List SubstreamSummary) (i p : ℕ), 1 ≤ i →
      (usUpdateFrom f lh key i rest).get? p =
        if allOnes lh key (i - 1) (p + 1) = true then
          (rest.get? p).map (fun ss => ssUpdate f ss key)
        else rest.get? p := by
  intro rest
  induction rest with
  | nil =>
      intro i p _
      simp [usUpdateFrom]
  | cons ss rest ih =>
      intro i p hi
      by_cases hc : to_bool (lh (i - 1) key) = 1
      · have hall : (lh (i - 1) key % 2 == 1) = true := by
          simpa [to_bool] using hc
        cases p with
        | zero =>
            have hcond : allOnes lh key (i - 1) 1 = true := by
              show ((lh (i - 1) key % 2 == 1) &&
                allOnes lh key (i - 1 + 1) 0) = true
              rw [hall]
              rfl
            simp [usUpdateFrom, hc, hcond]
        | succ q =>
            have h2 : i - 1 + 1 = i := by omega
            have h3 : i + 1 - 1 = i := by omega
            have hcond : allOnes lh key (i - 1) (q + 1 + 1) =
                allOnes lh key i (q + 1) := by
              show ((lh (i - 1) key % 2 == 1) &&
                  allOnes lh key (i - 1 + 1) (q + 1)) = _
              rw [hall, h2, Bool.true_and]
            simp only [usUpdateFrom, if_pos hc, List.get?_cons_succ]
            rw [ih (i + 1) q (by omega), h3, hcond]
      · have hne : lh (i - 1) key % 2 ≠ 1 := by
          simpa [to_bool] using hc
        have hall : (lh (i - 1) key % 2 == 1) = false := by
          simpa using hne
        have hcond : allOnes lh key (i - 1) (p + 1) = false := by
          show ((lh (i - 1) key % 2 == 1) &&
              allOnes lh key (i - 1 + 1) p) = false
          rw [hall, Bool.false_and]
        simp [usUpdateFrom, hc, hcond]

/-- Characterisation of `update` at key-hash level: layer `i` is replaced by
its updated version exactly when `layerIngests` holds (layer 0 always),
and is untouched otherwise. -/
lemma usUpdate_get? (f : ℤ → ℚ) (s : UniversalSketch) (key : ℕ) (i : ℕ) :
    (usUpdate f s key).substreams.get? i =
      (s.substreams.get? i).map
        (fun ss =>
          if layerIngests s.layer_hashes key i = true then ssUpdate f ss key
          else ss) := by
  cases hs : s.substreams with
  | nil => simp [usUpdate, hs]
  | cons ss0 rest =>
      cases i with
      | zero =>
          simp [usUpdate, hs, layerIngests, allOnes]
      | succ q =>
          simp only [usUpdate, hs, List.get?_cons_succ]
          rw [usUpdateFrom_get? f s.layer_hashes key rest 1 q (by omega)]
          have h0 : (1 : ℕ) - 1 = 0 := rfl
          rw [h0]
          by_cases hb : allOnes s.layer_hashes key 0 (q + 1) = true
          · cases hrq : rest.get? q <;> simp [layerIngests, hb, hrq]
          · cases hrq : rest.get? q <;> simp [layerIngests, hb, hrq]

/-- A member of a pushed heap is the pushed pair or an old member. -/
lemma mem_hhPush {e : ℕ × ℤ} {q : List (ℕ × ℤ)} {k : ℕ} {c : ℤ}
    (h : e ∈ hhPush q k c) : e = (k, c) ∨ e ∈ q :=
  (List.mem_orderedInsert _).mp h

/-- Removal only drops elements. -/
lemma mem_hhRemove {e : ℕ × ℤ} {q : List (ℕ × ℤ)} {k : ℕ}
    (h : e ∈ hhRemove q k) : e ∈ q :=
  (List.mem_filter.mp h).1

/-- Popping only drops elements. -/
lemma mem_hhPop {e : ℕ × ℤ} {q : List (ℕ × ℤ)} (h : e ∈ hhPop q) : e ∈ q :=
  List.mem_of_mem_tail h

/-- A member of the heap after `update_hh_pq` is an old member or carries the
updated key hash. -/
lemma mem_update_hh_pq {sk : CountSketch} {q : List (ℕ × ℤ)} {n : ℕ}
    {a : ℚ} {key : ℕ} {c : ℤ} {l : ℚ} {e : ℕ × ℤ}
    (h : e ∈ update_hh_pq sk q n a key c l) : e ∈ q ∨ e.1 = key := by
  unfold update_hh_pq at h
  split_ifs at h with h1 h2 h3
  · exact Or.inl h
  · rcases mem_hhPush h with he | he
    · exact Or.inr (by rw [he])
    · exact Or.inl (mem_hhRemove he)
  · rcases mem_hhPush h with he | he
    · exact Or.inr (by rw [he])
    · exact Or.inl (mem_hhPop (mem_hhRemove he))
  · exact Or.inl h

/-- A member of the heap after a substream update is an old member or carries
the updated key hash (in approximate mode the heap is untouched). -/
lemma ssUpdate_mem_hhs (f : ℤ → ℚ) (ss : SubstreamSummary) (key : ℕ)
    {e : ℕ × ℤ} (h : e ∈ (ssUpdate f ss key).hhs_precise) :
    e ∈ ss.hhs_precise ∨ e.1 = key := by
  unfold ssUpdate at h
  by_cases hm : ss.use_precise_hh
  · simp only [hm, if_true] at h
    exact mem_update_hh_pq h
  · simp only [hm, Bool.false_eq_true, if_false] at h
    exact Or.inl h

/-- Extending the stream preserves ingestion membership. -/
lemma mem_ingestedAt_append {lh : ℕ → ℕ → ℕ} {ks : List ℕ} {k x j : ℕ}
    (h : x ∈ ingestedAt lh ks j) : x ∈ ingestedAt lh (ks ++ [k]) j := by
  unfold ingestedAt at h ⊢
  rw [List.filter_append]
  exact List.mem_append_left _ h

/-- One ingest preserves the heap-origin invariant. -/
lemma heapOrigin_step (f : ℤ → ℚ) (lh : ℕ → ℕ → ℕ) (ks : List ℕ) (k : ℕ)
    (s : UniversalSketch) (hlh : s.layer_hashes = lh)
    (hinv : HeapOrigin lh ks s) :
    HeapOrigin lh (ks ++ [k]) (usUpdate f s k) := by
  intro i ss' hget e he j hj
  rw [usUpdate_get? f s k i] at hget
  cases hg : s.substreams.get? i with
  | none => rw [hg] at hget; simp at hget
  | some ss =>
      rw [hg] at hget
      simp only [Option.map_some'] at hget
      injection hget with hget
      by_cases hc : layerIngests s.layer_hashes k i = true
      · rw [if_pos hc] at hget
        rw [← hget] at he
        rcases ssUpdate_mem_hhs f ss k he with h1 | h1
        · exact mem_ingestedAt_append (hinv i ss hg e h1 j hj)
        · have hing : layerIngests lh k j = true :=
            layerIngests_mono lh k hj (hlh ▸ hc)
          rw [h1]
          unfold ingestedAt
          rw [List.filter_append]
          refine List.mem_append_right _ ?_
          simp [hing]
      · rw [if_neg hc] at hget
        rw [← hget] at he
        exact mem_ingestedAt_append (hinv i ss hg e he j hj)

/-- A whole single-threaded stream preserves the heap-origin invariant. -/
lemma heapOrigin_run (f : ℤ → ℚ) (lh : ℕ → ℕ → ℕ) :
    ∀ (ks ks0 : List ℕ) (s : UniversalSketch), s.layer_hashes = lh →
      HeapOrigin lh ks0 s →
      HeapOrigin lh (ks0 ++ ks) (runUpdates f s ks) := by
  intro ks
  induction ks with
  | nil =>
      intro ks0 s _ h
      simpa [runUpdates] using h
  | cons k rest ih =>
      intro ks0 s hlh h
      have h1 := heapOrigin_step f lh ks0 k s hlh h
      have h2 := ih (ks0 ++ [k]) (usUpdate f s k) hlh h1
      simpa [runUpdates, List.append_assoc] using h2

/-- C3 (confirmed): layer 0 ingests every key; layer `i` ingests a key
exactly when the parity bits of `layer_hash[0..i-1]` at that key all equal 1
(the sequential loop stops at the first failing bit, which is equivalent);
a single `update` rewrites exactly the ingesting layers; and after any
single-threaded stream from an empty-heap state, every key hash in layer
`i`'s heavy-hitter heap was ingested by every layer `j ≤ i`. -/
theorem c3_layer_propagation (f : ℤ → ℚ) (s : UniversalSketch) (key : ℕ)
    (ks : List ℕ) (hE : ∀ ss ∈ s.substreams, ss.hhs_precise = []) :
    layerIngests s.layer_hashes key 0 = true ∧
    (∀ i, layerIngests s.layer_hashes key i = true ↔
      ∀ j, j < i → s.layer_hashes j key % 2 = 1) ∧
    (∀ i, (usUpdate f s key).substreams.get? i =
      (s.substreams.get? i).map
        (fun ss =>
          if layerIngests s.layer_hashes key i = true then ssUpdate f ss key
          else ss)) ∧
    (∀ i ss e j, (runUpdates f s ks).substreams.get? i = some ss →
      e ∈ ss.hhs_precise → j ≤ i →
      e.1 ∈ ingestedAt s.layer_hashes ks j) := by
  refine ⟨rfl, fun i => layerIngests_iff s.layer_hashes key i,
    fun i => usUpdate_get? f s key i, ?_⟩
  have hbase : HeapOrigin s.layer_hashes [] s := by
    intro i ss hget e he j _
    have hmem : ss ∈ s.substreams := List.get?_mem hget
    rw [hE ss hmem] at he
    simp at he
  have hrun := heapOrigin_run f s.layer_hashes ks [] s rfl hbase
  intro i ss e j hget he hj
  have h2 := hrun i ss hget e he j hj
  simpa using h2

/-- C3 witness: the propagation theorem applied to a concrete freshly
constructed two-layer sketch and the stream `[3]`: key `3` (odd parity)
reaches layer 1, and layer 1's heap after the run only holds keys ingested
by both layers. -/
theorem c3_witness :
    (∀ ss ∈ exEmpty2.substreams, ss.hhs_precise = []) ∧
    layerIngests exEmpty2.layer_hashes 3 0 = true ∧
    (layerIngests exEmpty2.layer_hashes 3 1 = true ↔
      ∀ j, j < 1 → exEmpty2.layer_hashes j 3 % 2 = 1) :=
  ⟨by decide,
    (c3_layer_propagation czero exEmpty2 3 [3] (by decide)).1,
    (c3_layer_propagation czero exEmpty2 3 [3] (by decide)).2.1 1⟩

end Confluo
